import Mathlib

/-!
# Asterism — verification of the graph-core behaviour

A shallow embedding of the Asterism frontend core (src/frontend/App.tsx and
src/frontend/components/GraphCanvas.tsx): the graph data model, the
breadth-first bounded-depth subgraph extraction performed by
`handleSearchTrigger`, the application selection state, the canvas highlight
opacities, and the fit-to-bounds camera transform of `resetZoom`.
Numbers that are JavaScript `number`s are modelled as `ℚ` (positions, scales,
opacities), ids as `ℕ`, and the `Infinity` depth sentinel as `⊤ : WithTop ℕ`.
-/

namespace Asterism

/-- A book node as delivered by the data provider (id, title, author, genre,
year) together with the optional fields the d3 canvas adds in place
(`x`/`y` positions and the derived `connectionCount`). -/
structure Node where
  id : Nat
  title : String
  author : String
  genre : String
  year : Int
  x : Option ℚ := none
  y : Option ℚ := none
  connectionCount : Option Nat := none
deriving DecidableEq, Repr

/-- A citation link: `source`/`target` are node ids (the embedding keeps the
id-based representation the payload uses). -/
structure Link where
  source : Nat
  target : Nat
  quote : String := ""
  sentiment : String := "neutral"
deriving DecidableEq, Repr

/-- The `GraphData` payload: `{ nodes, links }`. -/
structure GraphData where
  nodes : List Node
  links : List Link
deriving DecidableEq, Repr

/-! ## Breadth-first bounded-depth traversal (App.tsx, handleSearchTrigger)

The code keeps a `visitedIds` set and a queue of `{id, depth}` entries; each
dequeued entry with `depth < maxDepth` scans `masterData.links` for incident
links and enqueues unvisited neighbors at `depth + 1`. -/

/-- `masterData.links.filter(l => l.source === id || l.target === id)`. -/
def connectedLinks (ls : List Link) (id : Nat) : List Link :=
  ls.filter fun l => l.source == id || l.target == id

/-- `link.source === id ? link.target : link.source`. -/
def neighborId (l : Link) (id : Nat) : Nat :=
  if l.source == id then l.target else l.source

/-- One iteration of the inner `for (const link of connectedLinks)` loop:
if the neighbor is unvisited, mark it visited and push it at `depth + 1`. -/
def visitStep (d id : Nat) (acc : Finset Nat × List (Nat × Nat)) (l : Link) :
    Finset Nat × List (Nat × Nat) :=
  let nb := neighborId l id
  if nb ∈ acc.1 then acc else (insert nb acc.1, acc.2 ++ [(nb, d + 1)])

/-- The whole inner loop over the links incident to `id`. -/
def expand (ls : List Link) (id d : Nat) (visited : Finset Nat)
    (queue : List (Nat × Nat)) : Finset Nat × List (Nat × Nat) :=
  (connectedLinks ls id).foldl (visitStep d id) (visited, queue)

/-- All ids that occur as a link endpoint (used for the termination measure:
the visited set can only grow inside this set, beyond the root). -/
def endpointIds (ls : List Link) : Finset Nat :=
  (ls.map Link.source ++ ls.map Link.target).toFinset

lemma neighborId_mem_endpointIds {ls : List Link} {l : Link} (hl : l ∈ ls)
    (id : Nat) : neighborId l id ∈ endpointIds ls := by
  unfold neighborId endpointIds
  by_cases h : l.source == id <;> simp [h] <;>
    [right; left] <;> exact ⟨l, hl, rfl⟩

/-- Full specification of the inner loop `expand`: the queue grows by a block
`new` of entries at depth `d + 1`, whose ids are previously unvisited
neighbors of `id`, and the visited set grows by exactly those ids. -/
lemma foldl_visitStep_spec (d id : Nat) (ms : List Link) (v : Finset Nat)
    (q : List (Nat × Nat)) :
    ∃ new : List (Nat × Nat),
      (ms.foldl (visitStep d id) (v, q)).2 = q ++ new ∧
      (∀ p ∈ new, p.2 = d + 1 ∧
        p.1 ∈ ms.map (fun l => neighborId l id) ∧ p.1 ∉ v) ∧
      (ms.foldl (visitStep d id) (v, q)).1 = v ∪ (new.map Prod.fst).toFinset := by
  induction ms generalizing v q with
  | nil => exact ⟨[], by simp, by simp, by simp⟩
  | cons l ms ih =>
    by_cases h : neighborId l id ∈ v
    · have hstep : visitStep d id (v, q) l = (v, q) := by
        simp [visitStep, h]
      obtain ⟨new, h1, h2, h3⟩ := ih v q
      refine ⟨new, by simpa [hstep] using h1, ?_, by simpa [hstep] using h3⟩
      intro p hp
      obtain ⟨hp1, hp2, hp3⟩ := h2 p hp
      exact ⟨hp1, by simp [hp2], hp3⟩
    · have hstep : visitStep d id (v, q) l
          = (insert (neighborId l id) v, q ++ [(neighborId l id, d + 1)]) := by
        simp [visitStep, h]
      obtain ⟨new, h1, h2, h3⟩ :=
        ih (insert (neighborId l id) v) (q ++ [(neighborId l id, d + 1)])
      refine ⟨(neighborId l id, d + 1) :: new, ?_, ?_, ?_⟩
      · rw [List.foldl_cons, hstep, h1, List.append_assoc]
        simp
      · intro p hp
        rcases List.mem_cons.mp hp with rfl | hp'
        · exact ⟨rfl, by simp, h⟩
        · obtain ⟨hp1, hp2, hp3⟩ := h2 p hp'
          refine ⟨hp1, by simp [hp2], fun hv => hp3 ?_⟩
          exact Finset.mem_insert_of_mem hv
      · rw [List.foldl_cons, hstep, h3]
        ext a
        simp [Finset.mem_insert]

/-- The visited set never shrinks across the inner loop. -/
lemma subset_foldl_visitStep (d id : Nat) (ms : List Link) (v : Finset Nat)
    (q : List (Nat × Nat)) : v ⊆ (ms.foldl (visitStep d id) (v, q)).1 := by
  obtain ⟨new, _, _, h3⟩ := foldl_visitStep_spec d id ms v q
  rw [h3]
  exact Finset.subset_union_left

/-- After the inner loop every neighbor reached through a scanned link is
visited. -/
lemma foldl_visitStep_covers (d id : Nat) (ms : List Link) :
    ∀ (v : Finset Nat) (q : List (Nat × Nat)) (l : Link), l ∈ ms →
      neighborId l id ∈ (ms.foldl (visitStep d id) (v, q)).1 := by
  induction ms with
  | nil => intro v q l hl; simp at hl
  | cons l' ms ih =>
    intro v q l hl
    rw [List.foldl_cons]
    rcases List.mem_cons.mp hl with rfl | hl'
    · have hmem : neighborId l id ∈ (visitStep d id (v, q) l).1 := by
        by_cases h : neighborId l id ∈ v <;> simp [visitStep, h]
      have hsub := subset_foldl_visitStep d id ms (visitStep d id (v, q) l).1
        (visitStep d id (v, q) l).2
      simpa using hsub hmem
    · exact ih _ _ l hl'

/-- Termination dichotomy for the outer loop: expanding either strictly grows
the visited set inside `endpointIds`, or leaves both the visited set and the
queue unchanged. -/
lemma expand_measure (ls : List Link) (id d : Nat) (v : Finset Nat)
    (q : List (Nat × Nat)) :
    (endpointIds ls \ (expand ls id d v q).1).card
        < (endpointIds ls \ v).card ∨
      ((expand ls id d v q).1 = v ∧ (expand ls id d v q).2 = q) := by
  obtain ⟨new, h1, h2, h3⟩ := foldl_visitStep_spec d id (connectedLinks ls id) v q
  cases new with
  | nil =>
    right
    constructor
    · rw [expand, h3]; simp
    · rw [expand, h1]; simp
  | cons p new' =>
    left
    have hp := h2 p (List.mem_cons_self p new')
    obtain ⟨-, hpmem, hpnv⟩ := hp
    obtain ⟨l, hlmem, hlval⟩ := List.mem_map.mp hpmem
    have hlls : l ∈ ls := List.mem_of_mem_filter hlmem
    have hpe : p.1 ∈ endpointIds ls := by
      rw [← hlval]; exact neighborId_mem_endpointIds hlls id
    apply Finset.card_lt_card
    have hsub : v ⊆ (expand ls id d v q).1 := subset_foldl_visitStep d id _ v q
    rw [Finset.ssubset_iff_of_subset (Finset.sdiff_subset_sdiff Finset.Subset.rfl hsub)]
    refine ⟨p.1, Finset.mem_sdiff.mpr ⟨hpe, hpnv⟩, fun hmem => ?_⟩
    have hpvis : p.1 ∈ (expand ls id d v q).1 := by
      rw [expand, h3]
      simp
    exact (Finset.mem_sdiff.mp hmem).2 hpvis

/-- The outer `while (head < queue.length)` loop of `handleSearchTrigger`:
`pending` is the unprocessed suffix of the queue (the code keeps processed
entries and advances a `head` index; they are never read again).  An entry
whose depth has reached `maxDepth` (`currentDepth >= maxDepth`, with
`Infinity = ⊤` when the requested depth is `-1`) is not expanded. -/
def bfsLoop (ls : List Link) (m : WithTop Nat) (visited : Finset Nat)
    (pending : List (Nat × Nat)) : Finset Nat :=
  match pending with
  | [] => visited
  | (id, d) :: rest =>
    if (d : WithTop Nat) ≥ m then bfsLoop ls m visited rest
    else bfsLoop ls m (expand ls id d visited rest).1 (expand ls id d visited rest).2
termination_by ((endpointIds ls \ visited).card, pending.length)
decreasing_by
  · apply Prod.Lex.right
    simp
  · rcases expand_measure ls id d visited rest with h | ⟨h1, h2⟩
    · exact Prod.Lex.left _ _ h
    · rw [h1, h2]
      apply Prod.Lex.right
      simp

/-- The neighbors of `id` reachable through one link scan, as a finite set. -/
def nbrFinset (ls : List Link) (id : Nat) : Finset Nat :=
  ((connectedLinks ls id).map (fun l => neighborId l id)).toFinset

/-- `a` and `b` are the two endpoints of some link of `ls` (links are treated
as undirected by the traversal). -/
def linked (ls : List Link) (a b : Nat) : Prop :=
  ∃ l ∈ ls, (l.source = a ∧ l.target = b) ∨ (l.source = b ∧ l.target = a)

instance (ls : List Link) (a b : Nat) : Decidable (linked ls a b) := by
  unfold linked
  infer_instance

lemma mem_nbrFinset_iff (ls : List Link) (u w : Nat) :
    w ∈ nbrFinset ls u ↔ linked ls u w := by
  unfold nbrFinset linked connectedLinks neighborId
  simp only [List.mem_toFinset, List.mem_map, List.mem_filter]
  constructor
  · rintro ⟨l, ⟨hl, hcond⟩, hval⟩
    rcases Bool.or_eq_true_iff.mp hcond with hs | ht
    · have hs' : l.source = u := by simpa using hs
      refine ⟨l, hl, Or.inl ⟨hs', ?_⟩⟩
      simpa [hs'] using hval
    · have ht' : l.target = u := by simpa using ht
      by_cases hsu : l.source = u
      · refine ⟨l, hl, Or.inl ⟨hsu, ?_⟩⟩
        simpa [hsu] using hval
      · refine ⟨l, hl, Or.inr ⟨?_, ht'⟩⟩
        simpa [hsu] using hval
  · rintro ⟨l, hl, ⟨hs, ht⟩ | ⟨hs, ht⟩⟩
    · exact ⟨l, ⟨hl, by simp [hs]⟩, by simp [hs, ht]⟩
    · refine ⟨l, ⟨hl, by simp [ht]⟩, ?_⟩
      by_cases hsu : l.source = u
      · have huw : u = w := hsu.symm.trans hs
        rw [if_pos (by simp [hsu])]
        exact ht.trans huw
      · rw [if_neg (by simp [hsu])]
        exact hs

lemma linked_symm {ls : List Link} {a b : Nat} (h : linked ls a b) :
    linked ls b a := by
  obtain ⟨l, hl, h | h⟩ := h
  · exact ⟨l, hl, Or.inr h⟩
  · exact ⟨l, hl, Or.inl h⟩

/-- Level sets of the traversal: `reach ls r n` is the set of ids reachable
from `r` along at most `n` links. -/
def reach (ls : List Link) (r : Nat) : Nat → Finset Nat
  | 0 => {r}
  | n + 1 => reach ls r n ∪ (reach ls r n).biUnion (nbrFinset ls)

lemma reach_subset_succ (ls : List Link) (r n : Nat) :
    reach ls r n ⊆ reach ls r (n + 1) := by
  rw [reach]
  exact Finset.subset_union_left

lemma reach_mono (ls : List Link) (r : Nat) {a b : Nat} (h : a ≤ b) :
    reach ls r a ⊆ reach ls r b := by
  induction b with
  | zero => rw [Nat.le_zero.mp h]
  | succ b ih =>
    rcases Nat.lt_or_ge a (b + 1) with h' | h'
    · exact (ih (Nat.lt_succ_iff.mp h')).trans (reach_subset_succ ls r b)
    · rw [Nat.le_antisymm h h']

lemma root_mem_reach (ls : List Link) (r n : Nat) : r ∈ reach ls r n :=
  reach_mono ls r (Nat.zero_le n) (by rw [reach]; exact Finset.mem_singleton_self r)

lemma nbr_mem_reach_succ {ls : List Link} {r u w n : Nat}
    (hu : u ∈ reach ls r n) (hw : w ∈ nbrFinset ls u) :
    w ∈ reach ls r (n + 1) := by
  rw [reach]
  exact Finset.mem_union_right _ (Finset.mem_biUnion.mpr ⟨u, hu, hw⟩)

/-- Once two consecutive levels agree, the levels have stabilized. -/
lemma reach_stab {ls : List Link} {r k : Nat}
    (h : reach ls r (k + 1) ⊆ reach ls r k) (n : Nat) :
    reach ls r n ⊆ reach ls r k := by
  induction n with
  | zero => exact reach_mono ls r (Nat.zero_le k)
  | succ n ih =>
    rcases Nat.lt_or_ge n k with h' | h'
    · exact reach_mono ls r h'
    · intro w hw
      rw [reach] at hw
      rcases Finset.mem_union.mp hw with hw | hw
      · exact ih hw
      · obtain ⟨u, hu, hnb⟩ := Finset.mem_biUnion.mp hw
        exact h (nbr_mem_reach_succ (ih hu) hnb)

/-- In `WithTop ℕ`, a strict bound gives room for one more step. -/
lemma coe_add_one_le_of_lt {k : Nat} {m : WithTop Nat}
    (h : (k : WithTop Nat) < m) : ((k + 1 : Nat) : WithTop Nat) ≤ m := by
  cases m with
  | top => exact le_top
  | coe mm =>
    exact WithTop.coe_le_coe.mpr (Nat.succ_le_of_lt (WithTop.coe_lt_coe.mp h))

lemma bfsLoop_nil (ls : List Link) (m : WithTop Nat) (vis : Finset Nat) :
    bfsLoop ls m vis [] = vis := by
  simp only [bfsLoop]

lemma bfsLoop_cons (ls : List Link) (m : WithTop Nat) (vis : Finset Nat)
    (id d : Nat) (rest : List (Nat × Nat)) :
    bfsLoop ls m vis ((id, d) :: rest) =
      if (d : WithTop Nat) ≥ m then bfsLoop ls m vis rest
      else bfsLoop ls m (expand ls id d vis rest).1 (expand ls id d vis rest).2 := by
  simp only [bfsLoop]

/-- Breadth-first loop invariant.  When the pending queue consists of a block
`A` of entries at depth `k` followed by a block `B` at depth `k + 1`, with
`vis` squeezed between level `k` and level `k + 1`, every not-yet-visited
level-`k+1` id adjacent to an unprocessed `A` entry, and every visited id
beyond level `k` still pending in `B`, the loop computes exactly the ids
whose level is within the depth cap `m`. -/
theorem bfsLoop_char (ls : List Link) (m : WithTop Nat) (r : Nat)
    (vis : Finset Nat) (A B : List (Nat × Nat)) (k : Nat)
    (hA : ∀ p ∈ A, p.2 = k)
    (hB : ∀ p ∈ B, p.2 = k + 1)
    (hAr : ∀ p ∈ A, p.1 ∈ reach ls r k)
    (hBr : ∀ p ∈ B, p.1 ∈ reach ls r (k + 1))
    (hlo : reach ls r k ⊆ vis)
    (hhi : vis ⊆ reach ls r (k + 1))
    (hfr : (k : WithTop Nat) < m →
      ∀ w ∈ reach ls r (k + 1), w ∉ vis → ∃ p ∈ A, w ∈ nbrFinset ls p.1)
    (hBv : ∀ w ∈ vis, w ∉ reach ls r k → ∃ p ∈ B, p.1 = w)
    (hk : (k : WithTop Nat) ≤ m)
    (hcap : (k : WithTop Nat) < m ∨ vis = reach ls r k ∧ B = []) :
    ∀ v, v ∈ bfsLoop ls m vis (A ++ B) ↔
      ∃ n : Nat, (n : WithTop Nat) ≤ m ∧ v ∈ reach ls r n := by
  cases A with
  | nil =>
    cases B with
    | nil =>
      rw [List.append_nil, bfsLoop_nil]
      by_cases hlt : (k : WithTop Nat) < m
      · have h1 : reach ls r (k + 1) ⊆ vis := by
          intro w hw
          by_contra hnv
          obtain ⟨p, hp, -⟩ := hfr hlt w hw hnv
          simp at hp
        have h2 : vis ⊆ reach ls r k := by
          intro w hw
          by_contra hnw
          obtain ⟨p, hp, -⟩ := hBv w hw hnw
          simp at hp
        have hstab := reach_stab (h1.trans h2)
        intro v
        constructor
        · intro hv
          exact ⟨k, hk, h2 hv⟩
        · rintro ⟨n, -, hn⟩
          exact hlo (hstab n hn)
      · have hm : m = (k : WithTop Nat) := le_antisymm (not_lt.mp hlt) hk
        rcases hcap with h | ⟨hvis, -⟩
        · exact absurd h hlt
        · intro v
          constructor
          · intro hv
            exact ⟨k, hk, hvis ▸ hv⟩
          · rintro ⟨n, hnm, hn⟩
            have hnk : n ≤ k := by
              rw [hm] at hnm
              exact_mod_cast hnm
            rw [hvis]
            exact reach_mono ls r hnk hn
    | cons p B' =>
      have hlt : (k : WithTop Nat) < m := by
        rcases hcap with h | ⟨-, hBnil⟩
        · exact h
        · simp at hBnil
      have h1 : reach ls r (k + 1) ⊆ vis := by
        intro w hw
        by_contra hnv
        obtain ⟨q, hq, -⟩ := hfr hlt w hw hnv
        simp at hq
      have hveq : vis = reach ls r (k + 1) := Finset.Subset.antisymm hhi h1
      have ih := bfsLoop_char ls m r vis (p :: B') [] (k + 1)
        hB (by simp) hBr (by simp)
        h1
        (by rw [hveq]; exact reach_subset_succ ls r (k + 1))
        (by
          intro _ w hw hnv
          rw [reach] at hw
          rcases Finset.mem_union.mp hw with hw | hw
          · exact absurd (h1 hw) hnv
          · obtain ⟨u, hu, hnb⟩ := Finset.mem_biUnion.mp hw
            by_cases huk : u ∈ reach ls r k
            · exact absurd (h1 (nbr_mem_reach_succ huk hnb)) hnv
            · obtain ⟨q, hq, hqv⟩ := hBv u (h1 hu) huk
              exact ⟨q, hq, by rw [hqv]; exact hnb⟩)
        (by
          intro w hw hnw
          rw [hveq] at hw
          exact absurd hw hnw)
        (coe_add_one_le_of_lt hlt)
        (Or.inr ⟨hveq, rfl⟩)
      intro v
      rw [List.nil_append]
      have hv := ih v
      rw [List.append_nil] at hv
      exact hv
  | cons hd A' =>
    obtain ⟨id, d⟩ := hd
    have hdk : d = k := hA (id, d) (List.mem_cons_self _ _)
    subst hdk
    rw [List.cons_append, bfsLoop_cons]
    by_cases hge : (d : WithTop Nat) ≥ m
    · rw [if_pos hge]
      rcases hcap with hlt | ⟨hvis, hBnil⟩
      · exact absurd hlt (not_lt.mpr hge)
      · subst hBnil
        exact bfsLoop_char ls m r vis A' [] d
          (fun p hp => hA p (List.mem_cons_of_mem _ hp))
          (by simp)
          (fun p hp => hAr p (List.mem_cons_of_mem _ hp))
          (by simp)
          hlo hhi
          (fun hlt => absurd hlt (not_lt.mpr hge))
          (by
            intro w hw hnw
            rw [hvis] at hw
            exact absurd hw hnw)
          hk (Or.inr ⟨hvis, rfl⟩)
    · rw [if_neg hge]
      have hlt : (d : WithTop Nat) < m := not_le.mp hge
      have hidr : id ∈ reach ls r d := hAr (id, d) (List.mem_cons_self _ _)
      obtain ⟨new, h1, h2, h3⟩ :=
        foldl_visitStep_spec d id (connectedLinks ls id) vis (A' ++ B)
      have hE2 : (expand ls id d vis (A' ++ B)).2 = A' ++ (B ++ new) := by
        rw [expand, h1, List.append_assoc]
      have hE1 : (expand ls id d vis (A' ++ B)).1
          = vis ∪ (new.map Prod.fst).toFinset := by
        rw [expand, h3]
      have hsubv : vis ⊆ (expand ls id d vis (A' ++ B)).1 :=
        subset_foldl_visitStep d id (connectedLinks ls id) vis (A' ++ B)
      have hdich := expand_measure ls id d vis (A' ++ B)
      have hnewnil : (expand ls id d vis (A' ++ B)).2 = A' ++ B → new = [] := by
        intro hq
        have heq : A' ++ B = (A' ++ B) ++ new := hq.symm.trans h1
        have hlen := congrArg List.length heq
        simp at hlen
        exact hlen
      have hnewr : ∀ p ∈ new, p.1 ∈ reach ls r (d + 1) := by
        intro p hp
        obtain ⟨-, hpm, -⟩ := h2 p hp
        exact nbr_mem_reach_succ hidr (List.mem_toFinset.mpr hpm)
      have ih := bfsLoop_char ls m r (expand ls id d vis (A' ++ B)).1 A'
        (B ++ new) d
        (fun p hp => hA p (List.mem_cons_of_mem _ hp))
        (by
          intro p hp
          rcases List.mem_append.mp hp with hp | hp
          · exact hB p hp
          · exact (h2 p hp).1)
        (fun p hp => hAr p (List.mem_cons_of_mem _ hp))
        (by
          intro p hp
          rcases List.mem_append.mp hp with hp | hp
          · exact hBr p hp
          · exact hnewr p hp)
        (hlo.trans hsubv)
        (by
          rw [hE1]
          apply Finset.union_subset hhi
          intro a ha
          obtain ⟨p, hp, hval⟩ := List.mem_map.mp (List.mem_toFinset.mp ha)
          exact hval ▸ hnewr p hp)
        (by
          intro hlt' w hw hnv
          have hnv0 : w ∉ vis := fun hwv => hnv (hsubv hwv)
          obtain ⟨p, hp, hnb⟩ := hfr hlt w hw hnv0
          rcases List.mem_cons.mp hp with hpe | hp'
          · exfalso
            have hnb' : w ∈ nbrFinset ls id := by
              rw [hpe] at hnb
              exact hnb
            obtain ⟨l, hl, hval⟩ := List.mem_map.mp (List.mem_toFinset.mp hnb')
            exact hnv (hval ▸
              foldl_visitStep_covers d id (connectedLinks ls id) vis (A' ++ B) l hl)
          · exact ⟨p, hp', hnb⟩)
        (by
          intro w hw hnw
          rw [hE1] at hw
          rcases Finset.mem_union.mp hw with hw | hw
          · obtain ⟨p, hp, hval⟩ := hBv w hw hnw
            exact ⟨p, List.mem_append_left _ hp, hval⟩
          · obtain ⟨p, hp, hval⟩ := List.mem_map.mp (List.mem_toFinset.mp hw)
            exact ⟨p, List.mem_append_right _ hp, hval⟩)
        hk (Or.inl hlt)
      intro v
      rw [hE2]
      exact ih v
termination_by ((endpointIds ls \ vis).card, (A ++ B).length, B.length)
decreasing_by
  all_goals simp_wf
  all_goals subst_vars
  · simp only [List.append_nil, List.nil_append, List.length_cons, List.length_nil,
      List.length_append, Nat.zero_add, Nat.add_zero]
    apply Prod.Lex.right
    apply Prod.Lex.right
    omega
  · simp only [List.append_nil, List.nil_append, List.length_cons, List.length_nil,
      List.length_append, Nat.zero_add, Nat.add_zero]
    apply Prod.Lex.right
    apply Prod.Lex.left
    omega
  · rcases hdich with h | ⟨hv1, hv2⟩
    · exact Prod.Lex.left _ _ h
    · have hnew := hnewnil hv2
      subst hnew
      rw [hv1]
      simp only [List.append_nil, List.nil_append, List.length_cons, List.length_nil,
        List.length_append, Nat.zero_add, Nat.add_zero]
      apply Prod.Lex.right
      apply Prod.Lex.left
      omega

/-- `const maxDepth = depth === -1 ? Infinity : depth`. -/
def maxDepthOf (depth : Int) : WithTop Nat :=
  if depth = -1 then ⊤ else (depth.toNat : WithTop Nat)

/-- The visited-id set computed by the search traversal: visited is seeded
with the root, the queue with `{id: root, depth: 0}`. -/
def bfsVisited (ls : List Link) (rootId : Nat) (m : WithTop Nat) : Finset Nat :=
  bfsLoop ls m {rootId} [(rootId, 0)]

/-- The traversal visits exactly the ids whose level from the root is within
the depth cap. -/
theorem bfsVisited_char (ls : List Link) (r : Nat) (m : WithTop Nat) (v : Nat) :
    v ∈ bfsVisited ls r m ↔ ∃ n : Nat, (n : WithTop Nat) ≤ m ∧ v ∈ reach ls r n := by
  have h := bfsLoop_char ls m r {r} [(r, 0)] [] 0
    (by simp)
    (by simp)
    (by
      intro p hp
      simp at hp
      subst hp
      rw [reach]
      simp)
    (by simp)
    (by rw [reach])
    (by
      intro a ha
      rw [Finset.mem_singleton] at ha
      subst ha
      exact root_mem_reach ls a 1)
    (by
      intro _ w hw hnw
      rw [reach] at hw
      rcases Finset.mem_union.mp hw with h | h
      · rw [reach] at h
        exact absurd h hnw
      · obtain ⟨u, hu, hnb⟩ := Finset.mem_biUnion.mp h
        rw [reach, Finset.mem_singleton] at hu
        subst hu
        exact ⟨(u, 0), by simp, hnb⟩)
    (by
      intro w hw hnw
      rw [reach] at hnw
      exact absurd hw hnw)
    (by
      have : ((0 : Nat) : WithTop Nat) = 0 := by norm_cast
      rw [this]
      exact zero_le m)
    (Or.inr ⟨by rw [reach], rfl⟩)
  have hv := h v
  rw [List.append_nil] at hv
  exact hv

theorem bfsVisited_coe (ls : List Link) (r mm : Nat) :
    bfsVisited ls r (mm : WithTop Nat) = reach ls r mm := by
  ext v
  rw [bfsVisited_char]
  constructor
  · rintro ⟨n, hn, hv⟩
    exact reach_mono ls r (by exact_mod_cast hn) hv
  · intro hv
    exact ⟨mm, le_refl _, hv⟩

theorem bfsVisited_mono (ls : List Link) (r : Nat) {m1 m2 : WithTop Nat}
    (h : m1 ≤ m2) : bfsVisited ls r m1 ⊆ bfsVisited ls r m2 := by
  intro v hv
  rw [bfsVisited_char] at hv ⊢
  obtain ⟨n, hn, hv⟩ := hv
  exact ⟨n, hn.trans h, hv⟩

theorem bfsVisited_zero (ls : List Link) (r : Nat) :
    bfsVisited ls r (0 : WithTop Nat) = {r} := by
  have h0 : ((0 : Nat) : WithTop Nat) = (0 : WithTop Nat) := by norm_cast
  rw [← h0, bfsVisited_coe, reach]

/-- Reachability through some finite level equals undirected link
reachability. -/
theorem exists_reach_iff_rtg (ls : List Link) (r v : Nat) :
    (∃ n : Nat, v ∈ reach ls r n) ↔ Relation.ReflTransGen (linked ls) r v := by
  constructor
  · rintro ⟨n, hn⟩
    induction n generalizing v with
    | zero =>
      rw [reach, Finset.mem_singleton] at hn
      subst hn
      exact Relation.ReflTransGen.refl
    | succ n ih =>
      rw [reach] at hn
      rcases Finset.mem_union.mp hn with h | h
      · exact ih v h
      · obtain ⟨u, hu, hnb⟩ := Finset.mem_biUnion.mp h
        exact Relation.ReflTransGen.tail (ih u hu)
          ((mem_nbrFinset_iff ls u v).mp hnb)
  · intro h
    induction h with
    | refl => exact ⟨0, by rw [reach]; simp⟩
    | tail hab hbc ih =>
      obtain ⟨n, hn⟩ := ih
      exact ⟨n + 1, nbr_mem_reach_succ hn ((mem_nbrFinset_iff ls _ _).mpr hbc)⟩

/-- With the unbounded sentinel the traversal computes exactly the connected
component of the root. -/
theorem bfsVisited_top (ls : List Link) (r v : Nat) :
    v ∈ bfsVisited ls r ⊤ ↔ Relation.ReflTransGen (linked ls) r v := by
  rw [bfsVisited_char, ← exists_reach_iff_rtg]
  simp

lemma nbrFinset_perm {ls ls' : List Link} (h : ls.Perm ls') (id : Nat) :
    nbrFinset ls id = nbrFinset ls' id := by
  unfold nbrFinset connectedLinks
  exact List.toFinset_eq_of_perm _ _ ((h.filter _).map _)

lemma reach_perm {ls ls' : List Link} (h : ls.Perm ls') (r n : Nat) :
    reach ls r n = reach ls' r n := by
  induction n with
  | zero => rw [reach, reach]
  | succ n ih =>
    rw [reach, reach, ih]
    congr 1
    apply Finset.biUnion_congr rfl
    intro x _
    exact nbrFinset_perm h x

/-- The visited set only depends on the set of links, not on the order in
which the link list is scanned (hence not on discovery order). -/
theorem bfsVisited_perm {ls ls' : List Link} (h : ls.Perm ls') (r : Nat)
    (m : WithTop Nat) : bfsVisited ls r m = bfsVisited ls' r m := by
  ext v
  rw [bfsVisited_char, bfsVisited_char]
  constructor <;> rintro ⟨n, hn, hv⟩
  · exact ⟨n, hn, (reach_perm h r n) ▸ hv⟩
  · exact ⟨n, hn, (reach_perm h r n).symm ▸ hv⟩

/-! ## Subgraph extraction and application state (App.tsx) -/

/-- The extraction performed by `handleSearchTrigger`: run the traversal,
then filter nodes and links of `masterData` against the final visited set
(`filteredNodes` / `filteredLinks`, App.tsx lines 183–186). -/
def extractGraph (gd : GraphData) (rootId : Nat) (m : WithTop Nat) : GraphData :=
  let visitedIds := bfsVisited gd.links rootId m
  { nodes := gd.nodes.filter fun n => decide (n.id ∈ visitedIds),
    links := gd.links.filter fun l =>
      decide (l.source ∈ visitedIds) && decide (l.target ∈ visitedIds) }

lemma mem_extractGraph_links (gd : GraphData) (rootId : Nat) (m : WithTop Nat)
    (l : Link) :
    l ∈ (extractGraph gd rootId m).links ↔
      l ∈ gd.links ∧ l.source ∈ bfsVisited gd.links rootId m ∧
        l.target ∈ bfsVisited gd.links rootId m := by
  unfold extractGraph
  simp [List.mem_filter, and_assoc]

lemma mem_extractGraph_nodes (gd : GraphData) (rootId : Nat) (m : WithTop Nat)
    (n : Node) :
    n ∈ (extractGraph gd rootId m).nodes ↔
      n ∈ gd.nodes ∧ n.id ∈ bfsVisited gd.links rootId m := by
  unfold extractGraph
  simp [List.mem_filter]

/-- What the side panel shows. -/
inductive PanelEntry
  | node (n : Node)
  | link (l : Link)
deriving DecidableEq, Repr

/-- The React state of `App` that the claims are about. -/
structure AppState where
  masterData : GraphData
  graphData : GraphData
  isLoading : Bool
  loadError : Option String
  selectedId : Option Nat
  selectedLink : Option Link
  searchQuery : String
  panelOpen : Bool
  panelData : Option PanelEntry
  notification : Option String
deriving DecidableEq, Repr

/-- The `useState` initial values. -/
def initialAppState : AppState :=
  { masterData := ⟨[], []⟩, graphData := ⟨[], []⟩, isLoading := true,
    loadError := none, selectedId := none, selectedLink := none,
    searchQuery := "", panelOpen := false, panelData := none,
    notification := none }

/-- Successful fetch (App.tsx lines 39–42): the payload is stored as both
master and active graph data, unmodified. -/
def fetchDataSuccess (s : AppState) (data : GraphData) : AppState :=
  { s with masterData := data, graphData := data, isLoading := false }

/-- Canvas interaction events dispatched to `handleGraphInteraction`. -/
inductive GraphInteractionEvent
  | background
  | node (n : Node)
  | link (l : Link)

/-- `handleGraphInteraction` (App.tsx lines 59–82). -/
def handleGraphInteraction (s : AppState) (e : GraphInteractionEvent) :
    AppState :=
  match e with
  | .background =>
    { s with selectedId := none, selectedLink := none, panelOpen := false }
  | .node n =>
    { s with selectedId := some n.id, selectedLink := none,
             panelData := some (.node n), panelOpen := true }
  | .link l =>
    { s with selectedId := none, selectedLink := some l,
             panelData := some (.link l), panelOpen := true }

/-- `handleReset` (App.tsx lines 84–95). -/
def handleReset (s : AppState) : AppState :=
  { s with graphData := s.masterData, searchQuery := "", selectedId := none,
           selectedLink := none, panelOpen := false, notification := none }

/-- `handleNodeSelectFromPanel` (App.tsx lines 97–103). -/
def handleNodeSelectFromPanel (s : AppState) (n : Node) : AppState :=
  { s with selectedId := some n.id, selectedLink := none,
           panelData := some (.node n), panelOpen := true }

/-- Result of a search trigger: the new state, plus whether a 3-second
auto-dismiss timer for the notification was scheduled (`setTimeout`). -/
structure SearchOutcome where
  state : AppState
  dismissTimer : Bool
deriving DecidableEq, Repr

/-- JavaScript `toLowerCase`, modelled character-wise on the string's
character list (ASCII case mapping). -/
def lowerStr (s : String) : String := ⟨s.data.map Char.toLower⟩

/-- JavaScript `trim`: strip leading and trailing whitespace. -/
def trimStr (s : String) : String :=
  ⟨((s.data.dropWhile Char.isWhitespace).reverse.dropWhile
    Char.isWhitespace).reverse⟩

/-- `connectionCount` attached to the root's panel entry (App.tsx 193–195). -/
def rootConnectionCount (ls : List Link) (rootId : Nat) : Nat :=
  (ls.filter fun l => l.source == rootId || l.target == rootId).length

/-- `handleSearchTrigger` (App.tsx lines 136–199): trim and lower-case the
query; empty query resets; otherwise look up the first node whose
lower-cased title equals the query; if none, raise the not-found
notification and schedule its dismissal, leaving everything else unchanged;
otherwise select the root and replace the active graph by the extracted
subgraph. -/
def handleSearchTrigger (s : AppState) (depth : Int) : SearchOutcome :=
  let query := lowerStr (trimStr s.searchQuery)
  if query = "" then
    { state := handleReset s, dismissTimer := false }
  else
    match s.masterData.nodes.find? (fun n => lowerStr n.title == query) with
    | none =>
      { state := { s with
          notification :=
            some ("No book found with title matching \"" ++ s.searchQuery ++ "\"") },
        dismissTimer := true }
    | some rootNode =>
      { state := { s with
          notification := none,
          selectedId := some rootNode.id,
          selectedLink := none,
          graphData := extractGraph s.masterData rootNode.id (maxDepthOf depth),
          panelData := some (.node { rootNode with
            connectionCount :=
              some (rootConnectionCount s.masterData.links rootNode.id) }),
          panelOpen := true },
        dismissTimer := false }

/-- The operations of the host UI that touch the selection state. -/
inductive AppEvent
  | fetchSuccess (data : GraphData)
  | interact (e : GraphInteractionEvent)
  | reset
  | panelSelect (n : Node)
  | search (depth : Int)

def appStep (s : AppState) : AppEvent → AppState
  | .fetchSuccess data => fetchDataSuccess s data
  | .interact e => handleGraphInteraction s e
  | .reset => handleReset s
  | .panelSelect n => handleNodeSelectFromPanel s n
  | .search depth => (handleSearchTrigger s depth).state

/-- At most one of the node selection and the link selection is set. -/
def selMutex (s : AppState) : Prop :=
  s.selectedId = none ∨ s.selectedLink = none

/-! ## The GraphCanvas data effect (GraphCanvas.tsx lines 118–143) -/

/-- Connection counts: each link increments the count of both its endpoint
ids, whether or not that id names an existing node. -/
def canvasCount (ls : List Link) (id : Nat) : Nat :=
  (ls.filter fun l => l.source == id).length
    + (ls.filter fun l => l.target == id).length

/-- The node/link model built by the canvas data effect: nodes are cloned and
get their `connectionCount`; the link list is taken over as-is — there is no
filtering of links whose endpoints are missing from the node list. -/
def buildCanvasGraph (data : GraphData) : GraphData :=
  { nodes := data.nodes.map fun n =>
      { n with connectionCount := some (canvasCount data.links n.id) },
    links := data.links }

/-! ## Camera fit-to-bounds (GraphCanvas.tsx `resetZoom`, lines 36–95) -/

/-- A d3 zoom transform `zoomIdentity.translate(x, y).scale(k)`: a world
point `(wx, wy)` maps to screen point `(x + k * wx, y + k * wy)`. -/
structure ZoomTransform where
  k : ℚ
  x : ℚ
  y : ℚ
deriving DecidableEq, Repr

def zoomIdentity : ZoomTransform := ⟨1, 0, 0⟩

/-- `6 + (node.connectionCount || 0) * 2` — the node radius used both by the
canvas and by `resetZoom`. -/
def nodeRadius (n : Node) : ℚ := 6 + (n.connectionCount.getD 0 : ℚ) * 2

structure BBox where
  minX : ℚ
  maxX : ℚ
  minY : ℚ
  maxY : ℚ
deriving DecidableEq, Repr

/-- The bounding-box fold of `resetZoom` (lines 45–54): nodes without numeric
coordinates are skipped; the `±Infinity` initial sentinels are modelled by
`none`, and the four conditional updates by `min`/`max`. -/
def bboxFold (ns : List Node) : Option BBox :=
  ns.foldl
    (fun acc n =>
      match n.x, n.y with
      | some cx, some cy =>
        let r := nodeRadius n
        match acc with
        | none => some ⟨cx - r, cx + r, cy - r, cy + r⟩
        | some b => some ⟨min b.minX (cx - r), max b.maxX (cx + r),
            min b.minY (cy - r), max b.maxY (cy + r)⟩
      | _, _ => acc)
    none

/-- `resetZoom`: fit the node bounding box into the viewport with padding 60
and scale `min(1.2, min((w − 2p)/gw, (h − 2p)/gh))`, translating the box
midpoint to the viewport center; identity transform when there are no nodes
or no node has numeric coordinates. -/
def resetZoom (ns : List Node) (width height : ℚ) : ZoomTransform :=
  if ns.length > 0 then
    match bboxFold ns with
    | none => zoomIdentity
    | some b =>
      let padding : ℚ := 60
      let graphWidth := b.maxX - b.minX
      let graphHeight := b.maxY - b.minY
      let midX := (b.minX + b.maxX) / 2
      let midY := (b.minY + b.maxY) / 2
      let scale := min (12 / 10 : ℚ)
        (min ((width - padding * 2) / graphWidth)
          ((height - padding * 2) / graphHeight))
      ⟨scale, width / 2 - midX * scale, height / 2 - midY * scale⟩
  else zoomIdentity

/-! ## Highlight opacities (GraphCanvas.tsx selection effect, lines 338–440) -/

/-- JavaScript truthiness of `selectedId : number | null`: `!!selectedId` is
false both for `null` and for the id `0`. -/
def truthyId : Option Nat → Bool
  | none => false
  | some i => i != 0

/-- `isNodeActive` (lines 341–349). -/
def isNodeActive (selectedId : Option Nat) (selectedLink : Option Link)
    (d : Node) : Bool :=
  if truthyId selectedId && (some d.id == selectedId) then true
  else
    match selectedLink with
    | some sl => d.id == sl.source || d.id == sl.target
    | none => false

/-- The one-hop check for the `neighbor` tier (lines 363–367). -/
def isNeighborOf (ls : List Link) (selectedId : Nat) (d : Node) : Bool :=
  ls.any fun l =>
    (l.source == selectedId && l.target == d.id)
      || (l.target == selectedId && l.source == d.id)

/-- Circle opacity (lines 359–371). -/
def circleOpacity (ls : List Link) (selectedId : Option Nat)
    (selectedLink : Option Link) (d : Node) : ℚ :=
  let anythingSelected := truthyId selectedId || selectedLink.isSome
  if !anythingSelected then 9 / 10
  else if truthyId selectedId then
    if isNodeActive selectedId selectedLink d then 1
    else if isNeighborOf ls (selectedId.getD 0) d then 8 / 10
    else 1 / 10
  else if selectedLink.isSome then
    if isNodeActive selectedId selectedLink d then 1 else 1 / 10
  else 1 / 10

/-- Link opacity (lines 406–423), including the hover override. -/
def linkOpacity (isDark : Bool) (hovered : Option Link)
    (selectedId : Option Nat) (selectedLink : Option Link) (d : Link) : ℚ :=
  if hovered == some d then 1
  else
    let anythingSelected := truthyId selectedId || selectedLink.isSome
    if !anythingSelected then (if isDark then 4 / 10 else 6 / 10)
    else if truthyId selectedId then
      if d.source == selectedId.getD 0 || d.target == selectedId.getD 0 then
        8 / 10
      else 5 / 100
    else
      match selectedLink with
      | some sl =>
        if sl.source == d.source && sl.target == d.target then 1 else 5 / 100
      | none => 5 / 100

/-- Highlight tiers of design §4.3. -/
inductive Tier
  | active
  | neighbor
  | dimmed
  | neutral
deriving DecidableEq, Repr

/-- The selection sum type `{None} | {Node, id} | {Edge, id}`. -/
inductive Selection
  | idle
  | node (id : Nat)
  | edge (l : Link)
deriving DecidableEq, Repr

def Selection.selId : Selection → Option Nat
  | .node i => some i
  | _ => none

def Selection.selLink : Selection → Option Link
  | .edge l => some l
  | _ => none

/-- Spec-side definition (design §4.3), for refinement comparison: the
highlight tier of a node — `active` for the selected node or a selected
edge's endpoints, `neighbor` one hop from a selected node, `dimmed`
otherwise; uniform `neutral` when idle. -/
def specNodeTier (ls : List Link) (sel : Selection) (d : Node) : Tier :=
  match sel with
  | .idle => .neutral
  | .node i =>
    if d.id = i then .active
    else if linked ls i d.id then .neighbor
    else .dimmed
  | .edge sl =>
    if d.id = sl.source ∨ d.id = sl.target then .active else .dimmed

/-- Spec-side definition (design §4.3), for refinement comparison: the
highlight tier of an edge — `active` for the selected edge, `neighbor` for
an edge incident to the selected node, `dimmed` otherwise; `neutral` when
idle. -/
def specLinkTier (sel : Selection) (l : Link) : Tier :=
  match sel with
  | .idle => .neutral
  | .node i => if l.source = i ∨ l.target = i then .neighbor else .dimmed
  | .edge sl =>
    if sl.source = l.source ∧ sl.target = l.target then .active else .dimmed

/-- The opacity the canvas renders for each node tier. -/
def nodeTierOpacity : Tier → ℚ
  | .active => 1
  | .neighbor => 8 / 10
  | .dimmed => 1 / 10
  | .neutral => 9 / 10

/-- The opacity the canvas renders for each link tier. -/
def linkTierOpacity (isDark : Bool) : Tier → ℚ
  | .active => 1
  | .neighbor => 8 / 10
  | .dimmed => 5 / 100
  | .neutral => if isDark then 4 / 10 else 6 / 10

/-! ## Claims -/

/-- C1: For every graph, search root and depth, an edge is included in the
extraction result iff both of its endpoints are in the final visited node
set — the edge set is a final filter of all graph links against the visited
set — and the visited set (hence the edge set) is invariant under reordering
of the link list, so it does not depend on the order in which nodes are
discovered. -/
theorem extraction_edge_iff_endpoints_visited (gd : GraphData) (rootId : Nat)
    (m : WithTop Nat) :
    (∀ l : Link, l ∈ (extractGraph gd rootId m).links ↔
      l ∈ gd.links ∧ l.source ∈ bfsVisited gd.links rootId m ∧
        l.target ∈ bfsVisited gd.links rootId m) ∧
    (∀ ls' : List Link, gd.links.Perm ls' →
      bfsVisited gd.links rootId m = bfsVisited ls' rootId m) := by
  constructor
  · exact mem_extractGraph_links gd rootId m
  · intro ls' h
    exact bfsVisited_perm h rootId m

/-- Witness for C1 at a concrete graph and permutation. -/
theorem extraction_edge_iff_endpoints_visited_witness :
    (([⟨1, 2, "", "neutral"⟩, ⟨2, 3, "", "neutral"⟩] : List Link).Perm
        [⟨2, 3, "", "neutral"⟩, ⟨1, 2, "", "neutral"⟩]) ∧
      bfsVisited [⟨1, 2, "", "neutral"⟩, ⟨2, 3, "", "neutral"⟩] 1 ⊤
        = bfsVisited [⟨2, 3, "", "neutral"⟩, ⟨1, 2, "", "neutral"⟩] 1 ⊤ :=
  ⟨List.Perm.swap _ _ _,
    (extraction_edge_iff_endpoints_visited
        ⟨[], [⟨1, 2, "", "neutral"⟩, ⟨2, 3, "", "neutral"⟩]⟩ 1 ⊤).2
      [⟨2, 3, "", "neutral"⟩, ⟨1, 2, "", "neutral"⟩] (List.Perm.swap _ _ _)⟩

/-- C2 (amended): an edge referencing a node id absent from the node list is
NOT excluded anywhere — the fetch stores the payload unchanged as master and
active data, and the canvas model keeps the full link list as-is. -/
theorem dangling_links_retained (s : AppState) (data : GraphData) :
    (fetchDataSuccess s data).masterData = data ∧
      (fetchDataSuccess s data).graphData = data ∧
      (buildCanvasGraph data).links = data.links :=
  ⟨rfl, rfl, rfl⟩

/-- C2 counterexample: a link whose target id `2` names no node in the
payload is retained both in the loaded master data and in the built canvas
model, refuting the claimed silent exclusion of such edges. -/
theorem dangling_link_not_excluded :
    (∀ n ∈ (⟨[⟨1, "A", "B", "C", 1, none, none, none⟩],
        [⟨1, 2, "", "neutral"⟩]⟩ : GraphData).nodes, n.id ≠ 2) ∧
      (⟨1, 2, "", "neutral"⟩ : Link) ∈ (fetchDataSuccess initialAppState
        ⟨[⟨1, "A", "B", "C", 1, none, none, none⟩],
          [⟨1, 2, "", "neutral"⟩]⟩).masterData.links ∧
      (⟨1, 2, "", "neutral"⟩ : Link) ∈ (buildCanvasGraph
        ⟨[⟨1, "A", "B", "C", 1, none, none, none⟩],
          [⟨1, 2, "", "neutral"⟩]⟩).links := by
  refine ⟨?_, ?_, ?_⟩ <;> simp [fetchDataSuccess, buildCanvasGraph, initialAppState]

/-- C3: a non-empty query that case-insensitively matches no node title
leaves the active graph data, the selection and the master data unchanged,
sets the not-found notification, and schedules its auto-dismiss timer. -/
theorem search_not_found_leaves_state (s : AppState) (depth : Int)
    (hq : lowerStr (trimStr s.searchQuery) ≠ "")
    (hmiss : ∀ n ∈ s.masterData.nodes,
      lowerStr n.title ≠ lowerStr (trimStr s.searchQuery)) :
    (handleSearchTrigger s depth).state.graphData = s.graphData ∧
      (handleSearchTrigger s depth).state.selectedId = s.selectedId ∧
      (handleSearchTrigger s depth).state.selectedLink = s.selectedLink ∧
      (handleSearchTrigger s depth).state.masterData = s.masterData ∧
      (handleSearchTrigger s depth).state.searchQuery = s.searchQuery ∧
      (handleSearchTrigger s depth).state.notification
        = some ("No book found with title matching \"" ++ s.searchQuery ++ "\"") ∧
      (handleSearchTrigger s depth).dismissTimer = true := by
  have hfind : s.masterData.nodes.find?
      (fun n => lowerStr n.title == lowerStr (trimStr s.searchQuery)) = none := by
    rw [List.find?_eq_none]
    intro n hn
    simpa using hmiss n hn
  simp only [handleSearchTrigger]
  rw [if_neg hq, hfind]
  exact ⟨rfl, rfl, rfl, rfl, rfl, rfl, rfl⟩

/-- Witness for C3: a miss on an empty dataset with query `"zzz"`. -/
theorem search_not_found_leaves_state_witness :
    (lowerStr (trimStr "zzz") ≠ "") ∧
      (handleSearchTrigger { initialAppState with searchQuery := "zzz" } 1).state.selectedId
        = ({ initialAppState with searchQuery := "zzz" } : AppState).selectedId ∧
      (handleSearchTrigger { initialAppState with searchQuery := "zzz" } 1).state.notification
        = some ("No book found with title matching \"zzz\"") :=
  ⟨by decide,
    (search_not_found_leaves_state { initialAppState with searchQuery := "zzz" } 1
      (by decide) (by intro n hn; simp [initialAppState] at hn)).2.1,
    (search_not_found_leaves_state { initialAppState with searchQuery := "zzz" } 1
      (by decide) (by intro n hn; simp [initialAppState] at hn)).2.2.2.2.2.1⟩

/-- C4: for all depth caps `m1 ≤ m2` (including the unbounded sentinel), the
extracted node set at `m1` is contained in the extracted node set at `m2`. -/
theorem extraction_monotone_depth (gd : GraphData) (rootId : Nat)
    {m1 m2 : WithTop Nat} (h : m1 ≤ m2) :
    (∀ n, n ∈ (extractGraph gd rootId m1).nodes →
        n ∈ (extractGraph gd rootId m2).nodes) ∧
      bfsVisited gd.links rootId m1 ⊆ bfsVisited gd.links rootId m2 := by
  constructor
  · intro n hn
    rw [mem_extractGraph_nodes] at hn ⊢
    exact ⟨hn.1, bfsVisited_mono _ _ h hn.2⟩
  · exact bfsVisited_mono _ _ h

/-- Witness for C4 at depths 1 ≤ 2 on a concrete path graph. -/
theorem extraction_monotone_depth_witness :
    (((1 : Nat) : WithTop Nat) ≤ ((2 : Nat) : WithTop Nat)) ∧
      bfsVisited [⟨1, 2, "", "neutral"⟩, ⟨2, 3, "", "neutral"⟩] 1
          ((1 : Nat) : WithTop Nat)
        ⊆ bfsVisited [⟨1, 2, "", "neutral"⟩, ⟨2, 3, "", "neutral"⟩] 1
          ((2 : Nat) : WithTop Nat) :=
  ⟨WithTop.coe_le_coe.mpr (by norm_num),
    (extraction_monotone_depth
        ⟨[], [⟨1, 2, "", "neutral"⟩, ⟨2, 3, "", "neutral"⟩]⟩ 1
        (WithTop.coe_le_coe.mpr (by norm_num))).2⟩

/-- C5 (amended): at requested depth 0 the visited set is exactly the
singleton root; the extracted node list keeps exactly the nodes with the
root id, and the extracted edge list keeps exactly the self-loop links at
the root — so the edge set is empty iff the root has no self-loop. -/
theorem extraction_depth_zero (gd : GraphData) (rootId : Nat) :
    bfsVisited gd.links rootId (maxDepthOf 0) = {rootId} ∧
      (extractGraph gd rootId (maxDepthOf 0)).nodes
        = gd.nodes.filter (fun n => n.id == rootId) ∧
      (extractGraph gd rootId (maxDepthOf 0)).links
        = gd.links.filter (fun l => l.source == rootId && l.target == rootId) := by
  have hm : maxDepthOf 0 = (0 : WithTop Nat) := by
    unfold maxDepthOf
    norm_num
  refine ⟨by rw [hm, bfsVisited_zero], ?_, ?_⟩
  · simp only [extractGraph, hm, bfsVisited_zero]
    apply List.filter_congr
    intro n hn
    by_cases h : n.id = rootId <;> simp [h]
  · simp only [extractGraph, hm, bfsVisited_zero]
    apply List.filter_congr
    intro l hl
    by_cases h1 : l.source = rootId <;> by_cases h2 : l.target = rootId <;>
      simp [h1, h2]

/-- C5 counterexample: with a self-loop at the root, depth-0 extraction
returns a non-empty edge set, refuting `extract(root, 0).edgeIds = {}`. -/
theorem extraction_depth_zero_self_loop :
    (extractGraph ⟨[⟨1, "A", "B", "C", 1, none, none, none⟩],
        [⟨1, 1, "", "neutral"⟩]⟩ 1 (maxDepthOf 0)).links ≠ [] := by
  have hm : maxDepthOf 0 = (0 : WithTop Nat) := by
    unfold maxDepthOf
    norm_num
  simp [extractGraph, hm, bfsVisited_zero]

/-- C6: with the unbounded depth sentinel (requested depth `-1`), the visited
set is exactly the undirected connected component of the root, the extracted
nodes are exactly the graph nodes in that component, and the extracted edges
are exactly the graph links with both endpoints in that component. -/
theorem extraction_unbounded_component (gd : GraphData) (rootId : Nat) :
    maxDepthOf (-1) = ⊤ ∧
      (∀ v, v ∈ bfsVisited gd.links rootId ⊤ ↔
        Relation.ReflTransGen (linked gd.links) rootId v) ∧
      (∀ n, n ∈ (extractGraph gd rootId ⊤).nodes ↔
        n ∈ gd.nodes ∧ Relation.ReflTransGen (linked gd.links) rootId n.id) ∧
      (∀ l, l ∈ (extractGraph gd rootId ⊤).links ↔
        l ∈ gd.links ∧ Relation.ReflTransGen (linked gd.links) rootId l.source ∧
          Relation.ReflTransGen (linked gd.links) rootId l.target) := by
  refine ⟨by unfold maxDepthOf; norm_num,
    fun v => bfsVisited_top gd.links rootId v, ?_, ?_⟩
  · intro n
    rw [mem_extractGraph_nodes, bfsVisited_top]
  · intro l
    rw [mem_extractGraph_links, bfsVisited_top, bfsVisited_top]

/-- C7: the fit-to-bounds scale never exceeds the 1.2 cap; on a single
positioned node the transform maps the node's center to the viewport center;
on an empty node list it is the identity transform. -/
theorem resetZoom_scale_capped (w h : ℚ) :
    (∀ ns : List Node, (resetZoom ns w h).k ≤ 12 / 10) ∧
      (∀ (n : Node) (cx cy : ℚ), n.x = some cx → n.y = some cy →
        (resetZoom [n] w h).x + (resetZoom [n] w h).k * cx = w / 2 ∧
          (resetZoom [n] w h).y + (resetZoom [n] w h).k * cy = h / 2) ∧
      resetZoom [] w h = zoomIdentity := by
  refine ⟨?_, ?_, by simp [resetZoom]⟩
  · intro ns
    unfold resetZoom
    split
    · split
      · norm_num [zoomIdentity]
      · dsimp only
        exact min_le_left _ _
    · norm_num [zoomIdentity]
  · intro n cx cy hx hy
    have hbox : bboxFold [n] = some ⟨cx - nodeRadius n, cx + nodeRadius n,
        cy - nodeRadius n, cy + nodeRadius n⟩ := by
      simp [bboxFold, hx, hy]
    have hlen : ([n] : List Node).length > 0 := by simp
    constructor
    · unfold resetZoom
      rw [if_pos hlen, hbox]
      dsimp only
      ring
    · unfold resetZoom
      rw [if_pos hlen, hbox]
      dsimp only
      ring

/-- Witness for C7 at a concrete single-node graph in an 800×600 viewport. -/
theorem resetZoom_scale_capped_witness :
    ((⟨1, "A", "B", "C", 1, some 5, some 7, some 0⟩ : Node).x = some 5) ∧
      (resetZoom [⟨1, "A", "B", "C", 1, some 5, some 7, some 0⟩] 800 600).x
          + (resetZoom [⟨1, "A", "B", "C", 1, some 5, some 7, some 0⟩] 800 600).k * 5
        = 800 / 2 ∧
      (resetZoom [⟨1, "A", "B", "C", 1, some 5, some 7, some 0⟩] 800 600).y
          + (resetZoom [⟨1, "A", "B", "C", 1, some 5, some 7, some 0⟩] 800 600).k * 7
        = 600 / 2 :=
  ⟨rfl, (resetZoom_scale_capped 800 600).2.1
    ⟨1, "A", "B", "C", 1, some 5, some 7, some 0⟩ 5 7 rfl rfl⟩

/-- C8: selection mutual exclusion — at most one of the node and link
selections is set — holds initially and is preserved by every operation
(data load, canvas clicks, reset, panel selection, search). -/
theorem selection_mutual_exclusion :
    selMutex initialAppState ∧
      ∀ (s : AppState) (e : AppEvent), selMutex s → selMutex (appStep s e) := by
  constructor
  · exact Or.inl rfl
  · intro s e hs
    cases e with
    | fetchSuccess data => exact hs
    | interact ev =>
      cases ev with
      | background => exact Or.inl rfl
      | node n => exact Or.inr rfl
      | link l => exact Or.inl rfl
    | reset => exact Or.inl rfl
    | panelSelect n => exact Or.inr rfl
    | search depth =>
      simp only [appStep, handleSearchTrigger]
      split
      · exact Or.inl rfl
      · split
        · exact hs
        · exact Or.inr rfl

/-- Witness for C8: the invariant after a background click from the initial
state. -/
theorem selection_mutual_exclusion_witness :
    selMutex initialAppState ∧
      selMutex (appStep initialAppState
        (AppEvent.interact GraphInteractionEvent.background)) :=
  ⟨Or.inl rfl,
    selection_mutual_exclusion.2 initialAppState
      (AppEvent.interact GraphInteractionEvent.background) (Or.inl rfl)⟩

lemma isNeighborOf_iff (ls : List Link) (i : Nat) (d : Node) :
    isNeighborOf ls i d = true ↔ linked ls i d.id := by
  unfold isNeighborOf linked
  rw [List.any_eq_true]
  constructor
  · rintro ⟨l, hl, hcond⟩
    simp at hcond
    rcases hcond with ⟨h1, h2⟩ | ⟨h1, h2⟩
    · exact ⟨l, hl, Or.inl ⟨h1, h2⟩⟩
    · exact ⟨l, hl, Or.inr ⟨h2, h1⟩⟩
  · rintro ⟨l, hl, ⟨h1, h2⟩ | ⟨h1, h2⟩⟩
    · exact ⟨l, hl, by simp [h1, h2]⟩
    · exact ⟨l, hl, by simp [h1, h2]⟩

/-- C9 (amended): with no hovered link, and any selection that is not a node
with id 0, the rendered circle and link opacities realize exactly the spec's
highlight tiers (active / neighbor / dimmed, uniform neutral when idle). -/
theorem highlight_tiers_match (ls : List Link) (sel : Selection) (d : Node)
    (l : Link) (isDark : Bool)
    (hnz : ∀ i, sel = Selection.node i → i ≠ 0) :
    circleOpacity ls sel.selId sel.selLink d
        = nodeTierOpacity (specNodeTier ls sel d) ∧
      linkOpacity isDark none sel.selId sel.selLink l
        = linkTierOpacity isDark (specLinkTier sel l) := by
  cases sel with
  | idle =>
    constructor <;>
      simp [circleOpacity, linkOpacity, Selection.selId, Selection.selLink,
        truthyId, specNodeTier, specLinkTier, nodeTierOpacity, linkTierOpacity]
  | node i =>
    have hi : i ≠ 0 := hnz i rfl
    constructor
    · by_cases hdi : d.id = i
      · simp [circleOpacity, Selection.selId, Selection.selLink, truthyId, hi,
          isNodeActive, hdi, specNodeTier, nodeTierOpacity]
      · by_cases hnb : linked ls i d.id
        · have hbval : isNeighborOf ls i d = true :=
            (isNeighborOf_iff ls i d).mpr hnb
          simp [circleOpacity, Selection.selId, Selection.selLink, truthyId,
            hi, isNodeActive, hdi, hbval, specNodeTier, hnb, nodeTierOpacity]
        · have hbval : isNeighborOf ls i d = false := by
            rw [Bool.eq_false_iff]
            exact fun hc => hnb ((isNeighborOf_iff ls i d).mp hc)
          simp [circleOpacity, Selection.selId, Selection.selLink, truthyId,
            hi, isNodeActive, hdi, hbval, specNodeTier, hnb, nodeTierOpacity]
    · by_cases h1 : l.source = i <;> by_cases h2 : l.target = i <;>
        simp [linkOpacity, Selection.selId, Selection.selLink, truthyId, hi,
          specLinkTier, linkTierOpacity, h1, h2]
  | edge sl =>
    constructor
    · by_cases h1 : d.id = sl.source <;> by_cases h2 : d.id = sl.target <;>
        simp [circleOpacity, Selection.selId, Selection.selLink, truthyId,
          isNodeActive, specNodeTier, nodeTierOpacity, h1, h2]
    · by_cases h1 : sl.source = l.source <;> by_cases h2 : sl.target = l.target <;>
        simp [linkOpacity, Selection.selId, Selection.selLink, truthyId,
          specLinkTier, linkTierOpacity, h1, h2]

/-- Witness for C9: node 1 selected, a neighbor check on the empty graph. -/
theorem highlight_tiers_match_witness :
    (∀ i, Selection.node 1 = Selection.node i → i ≠ 0) ∧
      circleOpacity [] (Selection.node 1).selId (Selection.node 1).selLink
          ⟨1, "A", "B", "C", 1, none, none, none⟩
        = nodeTierOpacity (specNodeTier [] (Selection.node 1)
            ⟨1, "A", "B", "C", 1, none, none, none⟩) :=
  ⟨fun i hi => by cases hi; simp,
    (highlight_tiers_match [] (Selection.node 1)
      ⟨1, "A", "B", "C", 1, none, none, none⟩ ⟨1, 2, "", "neutral"⟩ true
      (fun i hi => by cases hi; simp)).1⟩

/-- C9 counterexample: as literally stated the claim fails on the code — a
selected node with id 0 renders at the neutral opacity instead of the active
tier (JavaScript truthiness of `selectedId`), and a hovered link renders at
full opacity even when the selection is idle instead of the neutral tier. -/
theorem highlight_tiers_counterexample :
    (circleOpacity [] (Selection.node 0).selId (Selection.node 0).selLink
        ⟨0, "A", "B", "C", 1, none, none, none⟩
      ≠ nodeTierOpacity (specNodeTier [] (Selection.node 0)
          ⟨0, "A", "B", "C", 1, none, none, none⟩)) ∧
    (linkOpacity true (some ⟨1, 2, "", "neutral"⟩) Selection.idle.selId
        Selection.idle.selLink ⟨1, 2, "", "neutral"⟩
      ≠ linkTierOpacity true (specLinkTier Selection.idle ⟨1, 2, "", "neutral"⟩)) := by
  constructor
  · norm_num [circleOpacity, Selection.selId, Selection.selLink, truthyId,
      isNodeActive, specNodeTier, nodeTierOpacity]
  · norm_num [linkOpacity, Selection.selId, Selection.selLink, truthyId,
      specLinkTier, linkTierOpacity]

/-- C10: an empty-or-whitespace query performs the full reset (active graph
restored to master, selection and query cleared, notification dismissed, no
not-found timer); and the title match is attempted on the trimmed,
lower-cased query. -/
theorem empty_query_resets (s : AppState) (depth : Int) :
    (trimStr s.searchQuery = "" →
      handleSearchTrigger s depth
          = { state := handleReset s, dismissTimer := false } ∧
        (handleSearchTrigger s depth).state.graphData = s.masterData ∧
        (handleSearchTrigger s depth).state.selectedId = none ∧
        (handleSearchTrigger s depth).state.selectedLink = none ∧
        (handleSearchTrigger s depth).state.searchQuery = "" ∧
        (handleSearchTrigger s depth).state.notification = none ∧
        (handleSearchTrigger s depth).dismissTimer = false) ∧
    (∀ n : Node, lowerStr (trimStr s.searchQuery) ≠ "" →
      s.masterData.nodes.find?
          (fun n' => lowerStr n'.title == lowerStr (trimStr s.searchQuery))
        = some n →
      (handleSearchTrigger s depth).state.selectedId = some n.id ∧
        (handleSearchTrigger s depth).state.notification = none ∧
        (handleSearchTrigger s depth).state.graphData
          = extractGraph s.masterData n.id (maxDepthOf depth)) := by
  constructor
  · intro htrim
    have hq : lowerStr (trimStr s.searchQuery) = "" := by
      rw [htrim]
      rfl
    simp only [handleSearchTrigger]
    rw [if_pos hq]
    exact ⟨rfl, rfl, rfl, rfl, rfl, rfl, rfl⟩
  · intro n hq hfind
    simp only [handleSearchTrigger]
    rw [if_neg hq, hfind]
    exact ⟨rfl, rfl, rfl⟩

/-- Witness for C10: a whitespace query resets; a padded query `"  A  "`
still finds the node titled `"a"`. -/
theorem empty_query_resets_witness :
    (trimStr "   " = "") ∧
      (handleSearchTrigger { initialAppState with searchQuery := "   " } 1).state.selectedId
        = none ∧
      (lowerStr (trimStr "  A  ") ≠ "") ∧
      (handleSearchTrigger { initialAppState with
          masterData := ⟨[⟨7, "a", "B", "C", 1, none, none, none⟩], []⟩,
          searchQuery := "  A  " } 2).state.selectedId = some 7 :=
  ⟨by decide,
    ((empty_query_resets { initialAppState with searchQuery := "   " } 1).1
      (by decide)).2.2.1,
    by decide,
    ((empty_query_resets { initialAppState with
        masterData := ⟨[⟨7, "a", "B", "C", 1, none, none, none⟩], []⟩,
        searchQuery := "  A  " } 2).2 ⟨7, "a", "B", "C", 1, none, none, none⟩
      (by decide) (by decide)).1⟩

end Asterism
